import Mathlib

/-!
# Verification of the harmonic force-constants module

Shallow embedding, over exact rational arithmetic, of the force-constants
construction and symmetrization engine found in `harmonic/force_constants.py`.
A force-constants tensor `Φ[i, j, a, b]` is modelled as a curried function
`Fin n → Fin m → Fin 3 → Fin 3 → ℚ`; numpy's in-place mutation is modelled by
returning the updated tensor, and numpy/python exceptions by `Except`/`Option`
results.
-/

namespace Phonopy

/-- A 3×3 Cartesian block of a force-constants tensor. -/
abbrev M3 : Type := Fin 3 → Fin 3 → ℚ

/-- A force-constants tensor of shape `(n, m, 3, 3)`:
`fc i j a b` is the `(a, b)` Cartesian entry of the block for atom pair
`(i, j)`. -/
abbrev FC (n m : ℕ) : Type := Fin n → Fin m → M3

/-- 3×3 matrix product. -/
def mul3 (A B : M3) : M3 := fun i j => ∑ k, A i k * B k j

/-- 3×3 identity matrix (`np.eye(3)`). -/
def id3 : M3 := fun i j => if i = j then 1 else 0

/-- Determinant of a 3×3 matrix. -/
def det3 (A : M3) : ℚ :=
  A 0 0 * (A 1 1 * A 2 2 - A 1 2 * A 2 1)
    - A 0 1 * (A 1 0 * A 2 2 - A 1 2 * A 2 0)
    + A 0 2 * (A 1 0 * A 2 1 - A 1 1 * A 2 0)

/-- Inverse of a 3×3 matrix (`np.linalg.inv`), written with the cyclic
cofactor formula: `(A⁻¹)[i, j] = adj(A)[i, j] / det A` where
`adj(A)[i, j] = A[j+1, i+1]·A[j+2, i+2] - A[j+1, i+2]·A[j+2, i+1]`
with indices taken mod 3. -/
def inv3 (A : M3) : M3 := fun i j =>
  (A (j + 1) (i + 1) * A (j + 2) (i + 2)
    - A (j + 1) (i + 2) * A (j + 2) (i + 1)) / det3 A

/-- `similarity_transformation(rot, mat)`: `R · M · R⁻¹`. -/
def similarity_transformation (rot M : M3) : M3 := mul3 rot (mul3 M (inv3 rot))

/-- `set_translational_invariance_per_index(fc2, index)`.
For `index = 0` the mean over the first axis is subtracted from each column
(`fc2[:, i, j, k] -= np.sum(fc2[:, i, j, k]) / fc2.shape[0]`); for any other
`index` the mean over the second axis is subtracted from each row
(`fc2[i, :, j, k] -= np.sum(fc2[i, :, j, k]) / fc2.shape[1]`).  Each column
(resp. row) is updated from its own sum only, so the sequential python loop is
equivalent to this simultaneous update. -/
def set_translational_invariance_per_index {n m : ℕ} (fc : FC n m) (index : ℕ) :
    FC n m :=
  if index = 0 then
    fun p i j k => fc p i j k - (∑ q, fc q i j k) / n
  else
    fun i p j k => fc i p j k - (∑ q, fc i q j k) / m

/-- `set_translational_invariance(force_constants)`: the per-index correction
applied for `index = 0` then `index = 1` (`for i in range(2)`). -/
def set_translational_invariance {n m : ℕ} (fc : FC n m) : FC n m :=
  set_translational_invariance_per_index
    (set_translational_invariance_per_index fc 0) 1

/-- `set_permutation_symmetry(force_constants)` on a full (square) tensor:
`force_constants[i, j] = (force_constants[i, j] + fc_copy[j, i].T) / 2`,
where `fc_copy` is a pristine copy, so every pair is averaged from the
original values. -/
def set_permutation_symmetry {n : ℕ} (fc : FC n n) : FC n n :=
  fun i j a b => (fc i j a b + fc j i b a) / 2

/-- `symmetrize_force_constants(force_constants, level)` on the pure-python
fallback path (`ImportError` branch): `level` iterations of
`set_translational_invariance` followed by `set_permutation_symmetry`, then
one final `set_translational_invariance`. -/
def symmetrize_force_constants {n : ℕ} (fc : FC n n) (level : ℕ) : FC n n :=
  set_translational_invariance
    ((fun g => set_permutation_symmetry (set_translational_invariance g))^[level]
      fc)

/-- Inner loop of `_get_sym_mappings_from_permutations` for one atom
`atom_todo = t`: scan `permutations` in the supplied order and return
`(sym_index, permutation[atom_todo])` for the first permutation whose image
of `t` lies in `atom_list_done`; `none` models the for-else path that raises
`ValueError`. -/
def find_first_done_image {P : ℕ} (done : Finset (Fin P)) (t : Fin P) :
    List (Fin P → Fin P) → Option (ℕ × Fin P)
  | [] => none
  | p :: ps =>
    if p t ∈ done then some (0, p t)
    else Option.map (fun sa => (sa.1 + 1, sa.2)) (find_first_done_image done t ps)

/-- `_get_sym_mappings_from_permutations(permutations, atom_list_done)`:
returns `(map_atoms, map_syms)` when every atom reaches the done set under
some permutation, and `none` (the raised `ValueError`) otherwise — in the
error case no partial mapping is produced. -/
def get_sym_mappings_from_permutations {P : ℕ}
    (perms : List (Fin P → Fin P)) (done : Finset (Fin P)) :
    Option ((Fin P → Fin P) × (Fin P → ℕ)) :=
  if h : ∀ t, (find_first_done_image done t perms).isSome then
    some (fun t => ((find_first_done_image done t perms).get (h t)).2,
          fun t => ((find_first_done_image done t perms).get (h t)).1)
  else none

/-- Modelled from the spec: `phonoc.distribute_fc2`, the native routine
invoked by `distribute_force_constants`, whose body is not among this
repository's python sources.  Following §4.2 of the specification, every
target row `i` is filled from its mapped done row by
`Φ[i, j] = R · Φ[map_atoms[i], perm(j)] · R⁻¹`, where `R` is the Cartesian
rotation of operation `map_syms[i]` and `perm` its atomic permutation
(targets are all atoms when `atom_list` is `None`). -/
def distribute_fc2 {N : ℕ} (fc : FC N N) (rots_cartesian : List M3)
    (perms : List (Fin N → Fin N)) (map_atoms : Fin N → Fin N)
    (map_syms : Fin N → ℕ) : FC N N :=
  fun i j =>
    similarity_transformation (rots_cartesian.getD (map_syms i) id3)
      (fc (map_atoms i) (perms.getD (map_syms i) id j))

/-- `distribute_force_constants(force_constants, atom_list_done, lattice,
rotations, permutations)` with all atoms as targets: compute the first-match
mappings, convert each fractional rotation to Cartesian form with
`similarity_transformation(lattice, r)`, and fill every row with
`distribute_fc2`; `none` propagates the `ValueError` of the mapping step. -/
def distribute_force_constants {N : ℕ} (fc : FC N N) (done : Finset (Fin N))
    (lattice : M3) (rotations : List M3) (perms : List (Fin N → Fin N)) :
    Option (FC N N) :=
  (get_sym_mappings_from_permutations perms done).map fun maps =>
    distribute_fc2 fc
      (rotations.map fun r => similarity_transformation lattice r)
      perms maps.1 maps.2

/-- `distribute_force_constants_by_translations(fc, primitive, supercell)`:
distribute using pure translations — identity rotations (`np.eye(3)`, one
per translation; the number of translations equals the number of atomic
permutations supplied by the primitive cell) together with the translation
permutations, the primitive representatives `p2s` being the done atoms. -/
def distribute_force_constants_by_translations {N P : ℕ} (fc : FC N N)
    (p2s : Fin P → Fin N) (lattice : M3) (perms : List (Fin N → Fin N)) :
    Option (FC N N) :=
  distribute_force_constants fc (Finset.image p2s Finset.univ) lattice
    (List.replicate perms.length id3) perms

/-- The seeding step `fc[phonon.primitive.p2s_map] = compact_fc` of
`compact_fc_to_full_fc`: numpy fancy assignment writes row `p2s k` of a
zero-initialised tensor with `compact k`, for `k` in increasing order. -/
def seed_full_fc {N P : ℕ} (compact : Fin P → Fin N → M3)
    (p2s : Fin P → Fin N) : FC N N :=
  (List.finRange P).foldl
    (fun fc k => Function.update fc (p2s k) (compact k)) fun _ _ _ _ => 0

/-- `compact_fc_to_full_fc(phonon, compact_fc)`: allocate a zero full
tensor, seed the primitive-representative rows from the compact tensor and
distribute the remaining rows by pure translations. -/
def compact_fc_to_full_fc {N P : ℕ} (compact : Fin P → Fin N → M3)
    (p2s : Fin P → Fin N) (lattice : M3) (perms : List (Fin N → Fin N)) :
    Option (FC N N) :=
  distribute_force_constants_by_translations (seed_full_fc compact p2s) p2s
    lattice perms

/-- `cutoff_force_constants(force_constants, supercell, primitive,
cutoff_radius)`: zero the block `(i, j)` whenever the minimum-image distance
`min_distances[j, i]` exceeds the cutoff radius, and leave it unchanged
otherwise.  The distance matrix (computed by the external
`get_smallest_vectors` collaborator from `phonopy.structure.cells`) is
supplied as an input, indexed `[j, i]` exactly as in the source. -/
def cutoff_force_constants {n m : ℕ} (fc : FC n m)
    (min_distances : Fin m → Fin n → ℚ) (cutoff_radius : ℚ) : FC n m :=
  fun i j => if cutoff_radius < min_distances j i then fun _ _ => 0 else fc i j

/-- State of the square-tensor branch of `show_drift_force_constants`:
the running maxima with their axis pairs, plus the force-constants buffer
(which the diagnostic only reads). -/
structure DriftState (n : ℕ) where
  maxval1 : ℚ
  jk1 : Fin 3 × Fin 3
  maxval2 : ℚ
  jk2 : Fin 3 × Fin 3
  fc : FC n n

/-- The index list `np.ndindex((num_atom, 3, 3))` in row-major order. -/
def ndindex_n33 (n : ℕ) : List (Fin n × Fin 3 × Fin 3) :=
  (List.finRange n).flatMap fun i =>
    (List.finRange 3).flatMap fun j =>
      (List.finRange 3).map fun k => (i, j, k)

/-- One iteration of the drift loop: compute the column sum `val1` and row
sum `val2` at `(i, j, k)` and update whichever running maximum is beaten in
absolute value. -/
def drift_step {n : ℕ} (st : DriftState n) (x : Fin n × Fin 3 × Fin 3) :
    DriftState n :=
  let val1 := ∑ q, st.fc q x.1 x.2.1 x.2.2
  let val2 := ∑ q, st.fc x.1 q x.2.1 x.2.2
  { st with
    maxval1 := if |st.maxval1| < |val1| then val1 else st.maxval1
    jk1 := if |st.maxval1| < |val1| then x.2 else st.jk1
    maxval2 := if |st.maxval2| < |val2| then val2 else st.maxval2
    jk2 := if |st.maxval2| < |val2| then x.2 else st.jk2 }

/-- The square-tensor branch of `show_drift_force_constants`: scan all
`(i, j, k)`, tracking the largest-magnitude column and row sums; the tensor
itself is only read. -/
def show_drift_force_constants_square {n : ℕ} (fc : FC n n) : DriftState n :=
  (ndindex_n33 n).foldl drift_step ⟨0, (0, 0), 0, (0, 0), fc⟩

/-- Python exceptions raised by `solve_force_constants`. -/
inductive PyError : Type
  | runtimeError : PyError
  | indexError : PyError
deriving DecidableEq

/-- First index of `disp` in the list (`np.where(disp == atom_list)[0]`,
first entry), `none` when absent. -/
def np_where_first (disp : ℕ) : List ℕ → Option ℕ
  | [] => none
  | a :: l =>
    if a = disp then some 0 else Option.map (· + 1) (np_where_first disp l)

/-- `solve_force_constants(force_constants, disp_atom_number, displacements,
sets_of_forces, ...)`: locate the row for the displaced atom (its own index
when `atom_list` is `None`, else its first position in `atom_list`, raising
`RuntimeError` when absent), then overwrite exactly that row with the block
returned by `_solve_force_constants_svd` (supplied here as `solved`, since
that solver is floating-point `np.linalg.pinv` arithmetic).  The result
pairs the raised exception, if any, with the buffer state afterwards. -/
def solve_force_constants {L N : ℕ} (fc : Fin L → Fin N → M3) (disp : ℕ)
    (atom_list : Option (List ℕ)) (solved : Fin N → M3) :
    Option PyError × (Fin L → Fin N → M3) :=
  match atom_list with
  | none =>
    if h : disp < L then (none, Function.update fc ⟨disp, h⟩ solved)
    else (some PyError.indexError, fc)
  | some al =>
    match np_where_first disp al with
    | none => (some PyError.runtimeError, fc)
    | some idx =>
      if h : idx < L then (none, Function.update fc ⟨idx, h⟩ solved)
      else (some PyError.indexError, fc)

/-- Errors relevant to `set_permutation_symmetry` on a non-square tensor:
an out-of-bounds `IndexError` from numpy indexing, carrying
`(axis, index, size)`, or a dedicated shape-mismatch error (the source
contains no shape check, so only the former can actually arise). -/
inductive NpError : Type
  | indexOutOfBounds (axis idx size : ℕ) : NpError
  | shapeMismatch : NpError
deriving DecidableEq

/-- Overwrite the 3×3 block at `(i, j)`. -/
def update_block {n m : ℕ} (fc : FC n m) (i : Fin n) (j : Fin m) (B : M3) :
    FC n m :=
  fun p q => if p = i ∧ q = j then B else fc p q

/-- One inner-loop step of `set_permutation_symmetry` on a general
`(n, m)`-shaped tensor, for row `i` and column counter `j` (a plain python
int): numpy evaluates `force_constants[i, j]` (bounds-checking `j` against
axis 1, size `m`), then `fc_copy[j, i]` (bounds-checking `j` against axis 0,
size `n`, and `i` against axis 1, size `m`), then assigns the average. -/
def perm_sym_step {n m : ℕ} (fcCopy : FC n m) (i : Fin n) (st : FC n m)
    (j : ℕ) : Except NpError (FC n m) :=
  if hjm : j < m then
    if hjn : j < n then
      if him : (i : ℕ) < m then
        Except.ok (update_block st i ⟨j, hjm⟩ fun a b =>
          (st i ⟨j, hjm⟩ a b + fcCopy ⟨j, hjn⟩ ⟨(i : ℕ), him⟩ b a) / 2)
      else Except.error (NpError.indexOutOfBounds 1 i m)
    else Except.error (NpError.indexOutOfBounds 0 j n)
  else Except.error (NpError.indexOutOfBounds 1 j m)

/-- `set_permutation_symmetry(force_constants)` executed on a tensor of
general shape `(n, m, 3, 3)` with numpy's bounds-checked indexing:
`fc_copy = force_constants.copy()`, then
`for i in range(n): for j in range(m): force_constants[i, j] =
(force_constants[i, j] + fc_copy[j, i].T) / 2`, stopping at the first
raised exception. -/
def set_permutation_symmetry_run {n m : ℕ} (fc : FC n m) :
    Except NpError (FC n m) :=
  (List.finRange n).foldlM
    (fun st i => (List.range m).foldlM (perm_sym_step fc i) st) fc

/-- The counter of `_combine_force_constants_equivalent_atoms`
(`set_tensor_symmetry` helper): `num_equiv_atoms` is incremented once for
every atom `j` with `map_atoms[j] == i` — the size of the orbit of the
independent atom `i`. -/
def num_equiv_atoms {K : ℕ} (map_atoms : Fin K → Fin K) (i : Fin K) : ℕ :=
  (Finset.univ.filter fun j => map_atoms j = i).card

/-- The counter of `_average_force_constants_by_sitesym`
(`set_tensor_symmetry` helper): `num_sitesym` is incremented once for every
operation `r` with `mapa[r][i] == i` — the size of the stabiliser of atom
`i` (`mapa[r][a]` being the image of atom `a` under operation `r`, as
computed by `_get_atom_indices_by_symmetry`). -/
def num_sitesym {R K : ℕ} (mapa : Fin R → Fin K → Fin K) (i : Fin K) : ℕ :=
  (Finset.univ.filter fun r => mapa r i = i).card

/-! ## Theorems: translational invariance and permutation symmetry (C1, C2) -/

lemma sti_index0_apply {n m : ℕ} (fc : FC n m) (p : Fin n) (i : Fin m)
    (j k : Fin 3) :
    set_translational_invariance_per_index fc 0 p i j k
      = fc p i j k - (∑ q, fc q i j k) / n := by
  simp [set_translational_invariance_per_index]

lemma sti_index1_apply {n m : ℕ} (fc : FC n m) (i : Fin n) (p : Fin m)
    (j k : Fin 3) :
    set_translational_invariance_per_index fc 1 i p j k
      = fc i p j k - (∑ q, fc i q j k) / m := by
  simp [set_translational_invariance_per_index]

/-- After the `index = 0` pass, every column sum (over the first axis)
vanishes. -/
lemma colsum_after_index0 {n m : ℕ} (fc : FC n m) (hn : 0 < n) (i : Fin m)
    (j k : Fin 3) :
    ∑ q, set_translational_invariance_per_index fc 0 q i j k = 0 := by
  have hcast : (n : ℚ) ≠ 0 := Nat.cast_ne_zero.mpr hn.ne'
  simp only [sti_index0_apply, Finset.sum_sub_distrib, Finset.sum_const,
    Finset.card_univ, Fintype.card_fin, nsmul_eq_mul]
  field_simp

/-- After the `index = 1` pass, every row sum (over the second axis)
vanishes. -/
lemma rowsum_after_index1 {n m : ℕ} (fc : FC n m) (hm : 0 < m) (i : Fin n)
    (j k : Fin 3) :
    ∑ q, set_translational_invariance_per_index fc 1 i q j k = 0 := by
  have hcast : (m : ℚ) ≠ 0 := Nat.cast_ne_zero.mpr hm.ne'
  simp only [sti_index1_apply, Finset.sum_sub_distrib, Finset.sum_const,
    Finset.card_univ, Fintype.card_fin, nsmul_eq_mul]
  field_simp

/-- The `index = 1` pass preserves the property that all column sums
vanish. -/
lemma colsum_preserved_index1 {n m : ℕ} (fc : FC n m)
    (h : ∀ (i : Fin m) (j k : Fin 3), ∑ q, fc q i j k = 0) (i : Fin m)
    (j k : Fin 3) :
    ∑ q, set_translational_invariance_per_index fc 1 q i j k = 0 := by
  simp only [sti_index1_apply, Finset.sum_sub_distrib, ← Finset.sum_div]
  have hT : (∑ q : Fin n, ∑ p : Fin m, fc q p j k) = 0 := by
    rw [Finset.sum_comm]
    exact Finset.sum_eq_zero fun p _ => h p j k
  rw [h i j k, hT]
  simp

/-- `set_translational_invariance` zeroes every row sum. -/
lemma set_translational_invariance_rowsum {n m : ℕ} (fc : FC n m) (hm : 0 < m)
    (i : Fin n) (j k : Fin 3) :
    ∑ q, set_translational_invariance fc i q j k = 0 :=
  rowsum_after_index1 _ hm i j k

/-- `set_translational_invariance` zeroes every column sum. -/
lemma set_translational_invariance_colsum {n m : ℕ} (fc : FC n m) (hn : 0 < n)
    (i : Fin m) (j k : Fin 3) :
    ∑ q, set_translational_invariance fc q i j k = 0 :=
  colsum_preserved_index1 _ (fun i' j' k' => colsum_after_index0 fc hn i' j' k')
    i j k

/-- C1: for every full square force-constants tensor and every `level ≥ 1`,
after `symmetrize_force_constants` on the pure-python fallback path, every
row sum `Σ_j Φ[i,j,a,b]` and every column sum `Σ_i Φ[i,j,a,b]` vanishes
(exactly, in the exact rational-arithmetic model). -/
theorem symmetrize_force_constants_sum_rule {n : ℕ} (fc : FC n n)
    (level : ℕ) (_hlevel : 1 ≤ level) :
    ∀ (i : Fin n) (a b : Fin 3),
      (∑ j, symmetrize_force_constants fc level i j a b = 0) ∧
      (∑ j, symmetrize_force_constants fc level j i a b = 0) := by
  intro i a b
  have hn : 0 < n := i.pos
  exact ⟨set_translational_invariance_rowsum _ hn i a b,
    set_translational_invariance_colsum _ hn i a b⟩

/-- Witness for C1 at a concrete 2-atom tensor and `level = 1`. -/
theorem symmetrize_force_constants_sum_rule_witness :
    1 ≤ 1 ∧
      ((∑ j, symmetrize_force_constants
          (fun i j a b =>
            ((i : ℕ) * 9 + (j : ℕ) * 3 + (a : ℕ) * 2 + (b : ℕ) + 1 : ℚ) : FC 2 2)
          1 0 j 0 1 = 0) ∧
       (∑ j, symmetrize_force_constants
          (fun i j a b =>
            ((i : ℕ) * 9 + (j : ℕ) * 3 + (a : ℕ) * 2 + (b : ℕ) + 1 : ℚ) : FC 2 2)
          1 j 0 0 1 = 0)) :=
  ⟨le_refl 1,
    symmetrize_force_constants_sum_rule
      (fun i j a b =>
        ((i : ℕ) * 9 + (j : ℕ) * 3 + (a : ℕ) * 2 + (b : ℕ) + 1 : ℚ) : FC 2 2)
      1 (le_refl 1) 0 0 1⟩

/-- The output of `set_permutation_symmetry` satisfies
`Φ[i,j,a,b] = Φ[j,i,b,a]`. -/
lemma permSym_set_permutation_symmetry {n : ℕ} (fc : FC n n) :
    ∀ (i j : Fin n) (a b : Fin 3),
      set_permutation_symmetry fc i j a b
        = set_permutation_symmetry fc j i b a := by
  intro i j a b
  simp only [set_permutation_symmetry]
  ring

/-- `set_translational_invariance` preserves permutation symmetry
`Φ[i,j] = Φ[j,i]^T`. -/
lemma permSym_set_translational_invariance {n : ℕ} (fc : FC n n)
    (h : ∀ (i j : Fin n) (a b : Fin 3), fc i j a b = fc j i b a) :
    ∀ (i j : Fin n) (a b : Fin 3),
      set_translational_invariance fc i j a b
        = set_translational_invariance fc j i b a := by
  intro i j a b
  have hC : (∑ q, fc q j a b) = ∑ q, fc j q b a :=
    Finset.sum_congr rfl fun q _ => h q j a b
  have hR : (∑ q, fc i q a b) = ∑ q, fc q i b a :=
    Finset.sum_congr rfl fun q _ => h i q a b
  have hT : (∑ x : Fin n, ∑ y : Fin n, fc y x a b)
      = ∑ x : Fin n, ∑ y : Fin n, fc y x b a := by
    calc (∑ x : Fin n, ∑ y : Fin n, fc y x a b)
        = ∑ x : Fin n, ∑ y : Fin n, fc x y b a :=
          Finset.sum_congr rfl fun x _ =>
            Finset.sum_congr rfl fun y _ => h y x a b
      _ = ∑ x : Fin n, ∑ y : Fin n, fc y x b a := Finset.sum_comm
  simp only [set_translational_invariance, sti_index1_apply, sti_index0_apply,
    Finset.sum_sub_distrib, ← Finset.sum_div]
  linear_combination h i j a b - hC / n - hR / n + hT / ((n : ℚ) * n)

/-- C2: for every full square force-constants tensor and every `level ≥ 1`,
after `symmetrize_force_constants` on the pure-python fallback path,
`Φ[i,j]` equals the transpose of `Φ[j,i]` exactly (in the rational model),
even though the last pass performed is a translational-invariance pass. -/
theorem symmetrize_force_constants_permutation_symmetry {n : ℕ} (fc : FC n n)
    (level : ℕ) (hlevel : 1 ≤ level) :
    ∀ (i j : Fin n) (a b : Fin 3),
      symmetrize_force_constants fc level i j a b
        = symmetrize_force_constants fc level j i b a := by
  obtain ⟨l, rfl⟩ : ∃ l, level = l + 1 :=
    ⟨level - 1, (Nat.succ_pred_eq_of_pos hlevel).symm⟩
  unfold symmetrize_force_constants
  rw [Function.iterate_succ_apply']
  exact permSym_set_translational_invariance _
    (permSym_set_permutation_symmetry _)

/-- Witness for C2 at a concrete 2-atom tensor and `level = 1`. -/
theorem symmetrize_force_constants_permutation_symmetry_witness :
    1 ≤ 1 ∧
      symmetrize_force_constants
        (fun i j a b =>
          ((i : ℕ) * 11 + (j : ℕ) * 5 + (a : ℕ) * 4 + (b : ℕ) + 2 : ℚ) : FC 2 2)
        1 0 1 2 1
      = symmetrize_force_constants
        (fun i j a b =>
          ((i : ℕ) * 11 + (j : ℕ) * 5 + (a : ℕ) * 4 + (b : ℕ) + 2 : ℚ) : FC 2 2)
        1 1 0 1 2 :=
  ⟨le_refl 1,
    symmetrize_force_constants_permutation_symmetry
      (fun i j a b =>
        ((i : ℕ) * 11 + (j : ℕ) * 5 + (a : ℕ) * 4 + (b : ℕ) + 2 : ℚ) : FC 2 2)
      1 (le_refl 1) 0 1 2 1⟩

/-! ## Theorems: symmetry-distribution mapping (C3, C5) -/

/-- The scan fails exactly when no permutation maps `t` into the done set. -/
lemma find_first_done_image_eq_none_iff {P : ℕ} (done : Finset (Fin P))
    (t : Fin P) (ps : List (Fin P → Fin P)) :
    find_first_done_image done t ps = none ↔ ∀ p ∈ ps, p t ∉ done := by
  induction ps with
  | nil => simp [find_first_done_image]
  | cons p ps ih =>
    by_cases hp : p t ∈ done
    · simp [find_first_done_image, hp]
    · simp [find_first_done_image, hp, Option.map_eq_none', ih]

/-- First-match characterisation of the scan: a successful result names the
smallest permutation index whose image of `t` is done, together with that
image. -/
lemma find_first_done_image_spec {P : ℕ} (done : Finset (Fin P)) (t : Fin P)
    (ps : List (Fin P → Fin P)) (s : ℕ) (a : Fin P)
    (h : find_first_done_image done t ps = some (s, a)) :
    ∃ p, ps.get? s = some p ∧ p t = a ∧ a ∈ done ∧
      ∀ q ∈ ps.take s, q t ∉ done := by
  induction ps generalizing s with
  | nil => simp [find_first_done_image] at h
  | cons p ps ih =>
    by_cases hp : p t ∈ done
    · simp only [find_first_done_image, if_pos hp, Option.some.injEq,
        Prod.mk.injEq] at h
      obtain ⟨rfl, rfl⟩ := h
      exact ⟨p, rfl, rfl, hp, by simp⟩
    · simp only [find_first_done_image, if_neg hp, Option.map_eq_some'] at h
      obtain ⟨⟨s', a'⟩, hfind, heq⟩ := h
      obtain ⟨rfl, rfl⟩ : s' + 1 = s ∧ a' = a := by
        simpa using heq
      obtain ⟨q, hq, hqt, hqdone, htake⟩ := ih s' hfind
      refine ⟨q, hq, hqt, hqdone, ?_⟩
      intro r hr
      rw [List.take_succ_cons] at hr
      rcases List.mem_cons.mp hr with h1 | h2
      · subst h1; exact hp
      · exact htake r h2

/-- C3: `_get_sym_mappings_from_permutations` raises (returns no mapping at
all) exactly when some atom has no permutation mapping it into the done set;
and whenever it does return a mapping, every entry of `map_atoms` lies in the
done set. -/
theorem get_sym_mappings_raises_iff_unreachable {P : ℕ}
    (perms : List (Fin P → Fin P)) (done : Finset (Fin P)) :
    (get_sym_mappings_from_permutations perms done = none ↔
      ∃ t, ∀ p ∈ perms, p t ∉ done) ∧
    (∀ maps, get_sym_mappings_from_permutations perms done = some maps →
      ∀ t, maps.1 t ∈ done) := by
  unfold get_sym_mappings_from_permutations
  split_ifs with h
  · refine ⟨⟨fun hcontra => absurd hcontra (by simp), ?_⟩, ?_⟩
    · rintro ⟨t, ht⟩
      have hnone := (find_first_done_image_eq_none_iff done t perms).mpr ht
      have hsome := h t
      rw [hnone] at hsome
      simp at hsome
    · intro maps hmaps t
      have hm : maps = (fun t => ((find_first_done_image done t perms).get
          (h t)).2, fun t => ((find_first_done_image done t perms).get
          (h t)).1) := (Option.some_inj.mp hmaps).symm
      subst hm
      have hsa : find_first_done_image done t perms
          = some ((find_first_done_image done t perms).get (h t)) :=
        (Option.some_get (h t)).symm
      obtain ⟨p, _, _, hdone, _⟩ :=
        find_first_done_image_spec done t perms
          ((find_first_done_image done t perms).get (h t)).1
          ((find_first_done_image done t perms).get (h t)).2 hsa
      exact hdone
  · refine ⟨⟨fun _ => ?_, fun _ => rfl⟩, fun maps hmaps => by simp at hmaps⟩
    obtain ⟨t, ht⟩ := not_forall.mp h
    have hnone : find_first_done_image done t perms = none :=
      Option.not_isSome_iff_eq_none.mp (by simpa using ht)
    exact ⟨t, (find_first_done_image_eq_none_iff done t perms).mp hnone⟩

/-- Witness for C3: with one atom, the identity permutation and an empty
done set, the mapping step reports the error. -/
theorem get_sym_mappings_raises_witness :
    get_sym_mappings_from_permutations (P := 1) [fun a => a] ∅ = none :=
  (get_sym_mappings_raises_iff_unreachable [fun a => a] ∅).1.mpr
    ⟨0, by decide⟩

/-- C5: when every atom is reachable, the mapping is produced and follows
the deterministic first-match convention: `map_syms t` indexes a permutation
sending `t` into the done set, every earlier permutation in the supplied
order fails to do so, and `map_atoms t` is the image of `t` under that first
matching permutation. -/
theorem get_sym_mappings_first_match {P : ℕ}
    (perms : List (Fin P → Fin P)) (done : Finset (Fin P))
    (hreach : ∀ t : Fin P, ∃ p ∈ perms, p t ∈ done) :
    ∃ maps, get_sym_mappings_from_permutations perms done = some maps ∧
      ∀ t, ∃ p, perms.get? (maps.2 t) = some p ∧ maps.1 t = p t ∧
        p t ∈ done ∧ ∀ q ∈ perms.take (maps.2 t), q t ∉ done := by
  have h : ∀ t, (find_first_done_image done t perms).isSome := by
    intro t
    rcases hfind : find_first_done_image done t perms with _ | sa
    · obtain ⟨p, hp, hpt⟩ := hreach t
      exact absurd hpt
        (((find_first_done_image_eq_none_iff done t perms).mp hfind) p hp)
    · rfl
  refine ⟨_, by rw [get_sym_mappings_from_permutations, dif_pos h], ?_⟩
  intro t
  have hsa : find_first_done_image done t perms
      = some ((find_first_done_image done t perms).get (h t)) :=
    (Option.some_get (h t)).symm
  obtain ⟨p, hget, hpt, hdone, htake⟩ :=
    find_first_done_image_spec done t perms
      ((find_first_done_image done t perms).get (h t)).1
      ((find_first_done_image done t perms).get (h t)).2 hsa
  refine ⟨p, hget, hpt.symm, ?_, htake⟩
  rw [hpt]
  exact hdone

/-- Witness for C5: two atoms, permutations `[swap, id]`, done set `{0}`:
every atom is reachable and the first-match mapping is produced. -/
theorem get_sym_mappings_first_match_witness :
    ∃ maps, get_sym_mappings_from_permutations (P := 2)
        [fun a => a + 1, fun a => a] {0} = some maps ∧
      ∀ t, ∃ p, [fun a : Fin 2 => a + 1, fun a => a].get? (maps.2 t)
          = some p ∧ maps.1 t = p t ∧ p t ∈ ({0} : Finset (Fin 2)) ∧
        ∀ q ∈ [fun a : Fin 2 => a + 1, fun a => a].take (maps.2 t),
          q t ∉ ({0} : Finset (Fin 2)) :=
  get_sym_mappings_first_match [fun a => a + 1, fun a => a] {0} (by decide)

/-! ## Theorems: compact-to-full expansion by pure translations (C4) -/

lemma mul3_id3_left (B : M3) : mul3 id3 B = B := by
  funext i j
  simp only [mul3, id3, ite_mul, one_mul, zero_mul]
  rw [Finset.sum_ite_eq]
  simp

lemma mul3_id3_right (B : M3) : mul3 B id3 = B := by
  funext i j
  simp only [mul3, id3, mul_ite, mul_one, mul_zero]
  rw [Finset.sum_ite_eq']
  simp

lemma inv3_id3 : inv3 id3 = id3 := by
  funext i j
  fin_cases i <;> fin_cases j <;> simp [inv3, det3, id3]

lemma similarity_transformation_id3 (B : M3) :
    similarity_transformation id3 B = B := by
  unfold similarity_transformation
  rw [inv3_id3, mul3_id3_right, mul3_id3_left]

lemma getD_replicate {α : Type} (d x : α) (len s : ℕ) (h : s < len) :
    (List.replicate len x).getD s d = x := by
  induction len generalizing s with
  | zero => omega
  | succ l ih =>
    cases s with
    | zero => rfl
    | succ s' => exact ih s' (by omega)

lemma getD_of_get? {α : Type} (l : List α) (s : ℕ) (p d : α)
    (h : l.get? s = some p) : l.getD s d = p := by
  induction l generalizing s with
  | nil => simp at h
  | cons a l ih =>
    cases s with
    | zero =>
      obtain rfl : a = p := by simpa using h
      rfl
    | succ s' => exact ih s' (by simpa using h)

/-- Rows untouched by the seeding fold keep their value. -/
lemma seed_fold_untouched {N P : ℕ} (compact : Fin P → Fin N → M3)
    (l : List (Fin P)) (p2s : Fin P → Fin N) (fc0 : FC N N) (x : Fin N)
    (hx : ∀ k ∈ l, p2s k ≠ x) :
    l.foldl (fun fc k => Function.update fc (p2s k) (compact k)) fc0 x
      = fc0 x := by
  induction l generalizing fc0 with
  | nil => rfl
  | cons a l ih =>
    rw [List.foldl_cons,
      ih _ fun k hk => hx k (List.mem_cons_of_mem a hk)]
    exact Function.update_noteq (hx a (List.mem_cons_self a l)).symm _ _

/-- With an injective `p2s` map, the seeded tensor holds `compact k` at row
`p2s k`. -/
lemma seed_full_fc_apply {N P : ℕ} (compact : Fin P → Fin N → M3)
    (p2s : Fin P → Fin N) (hinj : Function.Injective p2s) (k : Fin P) :
    seed_full_fc compact p2s (p2s k) = compact k := by
  unfold seed_full_fc
  have hgen : ∀ (l : List (Fin P)) (fc0 : FC N N), k ∈ l →
      l.foldl (fun fc k' => Function.update fc (p2s k') (compact k')) fc0
        (p2s k) = compact k := by
    intro l
    induction l with
    | nil => intro fc0 hk; simp at hk
    | cons a l ih =>
      intro fc0 hk
      rw [List.foldl_cons]
      by_cases hkl : k ∈ l
      · exact ih _ hkl
      · obtain rfl : a = k := by
          rcases List.mem_cons.mp hk with h1 | h2
          · exact h1.symm
          · exact absurd h2 hkl
        rw [seed_fold_untouched]
        · exact Function.update_same _ _ _
        · intro k' hk' heq
          exact hkl (hinj heq ▸ hk')
  exact hgen (List.finRange P) _ (List.mem_finRange k)

/-- C4: for every compact tensor and valid primitive-cell maps
(injective `p2s`, `s2p (p2s k) = p2s k`), when the supplied permutations
behave as pure translations (they preserve the `s2p` class and act freely),
`compact_fc_to_full_fc` returns a full tensor that still satisfies
`full[p2s k] = compact[k]` for every primitive index `k`: the distribution
pass rewrites each seeded row only through the identity translation. -/
theorem compact_fc_to_full_fc_keeps_seeded_rows {N P : ℕ}
    (compact : Fin P → Fin N → M3) (p2s : Fin P → Fin N)
    (s2p : Fin N → Fin N) (lattice : M3) (perms : List (Fin N → Fin N))
    (hinj : Function.Injective p2s)
    (hs2p : ∀ k, s2p (p2s k) = p2s k)
    (hclass : ∀ p ∈ perms, ∀ a, s2p (p a) = s2p a)
    (hfree : ∀ p ∈ perms, ∀ a, p a = a → ∀ b, p b = b)
    (hreach : ∀ t : Fin N, ∃ p ∈ perms, p t ∈ Finset.image p2s Finset.univ)
    (hlat : mul3 lattice (inv3 lattice) = id3) :
    ∃ full, compact_fc_to_full_fc compact p2s lattice perms = some full ∧
      ∀ k, full (p2s k) = compact k := by
  obtain ⟨maps, hmaps, hspec⟩ :=
    get_sym_mappings_first_match perms (Finset.image p2s Finset.univ) hreach
  refine ⟨distribute_fc2 (seed_full_fc compact p2s)
      ((List.replicate perms.length id3).map
        fun r => similarity_transformation lattice r)
      perms maps.1 maps.2, ?_, ?_⟩
  · unfold compact_fc_to_full_fc distribute_force_constants_by_translations
      distribute_force_constants
    rw [hmaps, Option.map_some']
  · intro k
    funext j
    obtain ⟨p, hget, hma, hdone, -⟩ := hspec (p2s k)
    have hp : p ∈ perms := List.get?_mem hget
    obtain ⟨k', -, hk'⟩ := Finset.mem_image.mp hdone
    have hclasseq : p2s k' = p2s k := by
      have h1 : s2p (p (p2s k)) = p2s k := by
        rw [hclass p hp (p2s k), hs2p k]
      have h2 : s2p (p (p2s k)) = p2s k' := by
        rw [← hk', hs2p k']
      rw [← h1, h2]
    have hfix : p (p2s k) = p2s k := by
      rw [← hk', hclasseq]
    have hid : ∀ b, p b = b := hfree p hp (p2s k) hfix
    have hbound : maps.2 (p2s k) < perms.length := by
      obtain ⟨hb, -⟩ := List.get?_eq_some.mp hget
      exact hb
    unfold distribute_fc2
    rw [List.map_replicate, getD_replicate _ _ _ _ hbound,
      getD_of_get? _ _ _ _ hget, hid j, hma, hfix,
      seed_full_fc_apply compact p2s hinj k]
    have hcart : similarity_transformation lattice id3 = id3 := by
      unfold similarity_transformation
      rw [mul3_id3_left, hlat]
    rw [hcart, similarity_transformation_id3]

/-- Witness for C4: a two-atom supercell with a one-atom primitive cell,
permutations `[id, swap]` (the two pure translations), identity lattice. -/
theorem compact_fc_to_full_fc_keeps_seeded_rows_witness :
    ∃ full, compact_fc_to_full_fc
        (fun _ j a b => ((j : ℕ) * 9 + (a : ℕ) * 3 + (b : ℕ) + 1 : ℚ)
          : Fin 1 → Fin 2 → M3)
        (fun _ => 0 : Fin 1 → Fin 2) id3
        [fun a : Fin 2 => a, fun a => a + 1] = some full ∧
      ∀ _k : Fin 1, full 0
        = (fun j a b => ((j : ℕ) * 9 + (a : ℕ) * 3 + (b : ℕ) + 1 : ℚ)
            : Fin 2 → M3) :=
  compact_fc_to_full_fc_keeps_seeded_rows
    (fun _ j a b => ((j : ℕ) * 9 + (a : ℕ) * 3 + (b : ℕ) + 1 : ℚ))
    (fun _ : Fin 1 => (0 : Fin 2)) (fun _ : Fin 2 => (0 : Fin 2)) id3
    [fun a : Fin 2 => a, fun a => a + 1]
    (fun a b _ => Subsingleton.elim a b) (by decide) (by decide) (by decide)
    (by decide) (by rw [inv3_id3, mul3_id3_right])

/-! ## Theorems: cutoff monotonicity (C7) -/

/-- C7: enlarging the cutoff radius only ever preserves blocks — any block
zeroed at radius `r2 ≥ r1` is zeroed at `r1` as well, blocks within the
radius are left unchanged, and a radius strictly larger than every
minimum-image distance leaves the whole tensor unchanged. -/
theorem cutoff_force_constants_monotone {n m : ℕ} (fc : FC n m)
    (min_distances : Fin m → Fin n → ℚ) (r1 r2 : ℚ) (h12 : r1 ≤ r2) :
    (∀ i j, cutoff_force_constants fc min_distances r2 i j
        = (fun _ _ => 0 : M3) →
      cutoff_force_constants fc min_distances r1 i j = (fun _ _ => 0 : M3)) ∧
    (∀ i j, min_distances j i ≤ r2 →
      cutoff_force_constants fc min_distances r2 i j = fc i j) ∧
    (∀ r, (∀ (j : Fin m) (i : Fin n), min_distances j i < r) →
      cutoff_force_constants fc min_distances r = fc) := by
  refine ⟨?_, ?_, ?_⟩
  · intro i j h2
    unfold cutoff_force_constants at h2 ⊢
    by_cases h : r1 < min_distances j i
    · rw [if_pos h]
    · rw [if_neg h]
      have hr2 : ¬ r2 < min_distances j i :=
        fun hc => h (lt_of_le_of_lt h12 hc)
      rw [if_neg hr2] at h2
      exact h2
  · intro i j hle
    exact if_neg (not_lt.mpr hle)
  · intro r hall
    funext i j
    exact if_neg (lt_asymm (hall j i))

/-- Witness for C7 at a concrete one-atom tensor, distance `3/2` and radii
`1 ≤ 2`. -/
theorem cutoff_force_constants_monotone_witness :
    (∀ i j : Fin 1, cutoff_force_constants
        (fun _ _ _ _ => (1 : ℚ) : FC 1 1) (fun _ _ => (3 / 2 : ℚ)) 2 i j
        = (fun _ _ => 0 : M3) →
      cutoff_force_constants (fun _ _ _ _ => (1 : ℚ) : FC 1 1)
        (fun _ _ => (3 / 2 : ℚ)) 1 i j = (fun _ _ => 0 : M3)) ∧
    (∀ i j : Fin 1, (fun _ _ => (3 / 2 : ℚ)) j i ≤ 2 →
      cutoff_force_constants (fun _ _ _ _ => (1 : ℚ) : FC 1 1)
        (fun _ _ => (3 / 2 : ℚ)) 2 i j
        = (fun _ _ _ _ => (1 : ℚ) : FC 1 1) i j) ∧
    (∀ r, (∀ j i : Fin 1, (fun _ _ => (3 / 2 : ℚ)) j i < r) →
      cutoff_force_constants (fun _ _ _ _ => (1 : ℚ) : FC 1 1)
        (fun _ _ => (3 / 2 : ℚ)) r = (fun _ _ _ _ => (1 : ℚ) : FC 1 1)) :=
  cutoff_force_constants_monotone (fun _ _ _ _ => (1 : ℚ))
    (fun _ _ => (3 / 2 : ℚ)) 1 2 (by decide)

/-! ## Theorems: the drift diagnostic is read-only (C8) -/

/-- The drift scan never writes the force-constants buffer. -/
lemma drift_fold_fc {n : ℕ} (l : List (Fin n × Fin 3 × Fin 3))
    (st : DriftState n) : (l.foldl drift_step st).fc = st.fc := by
  induction l generalizing st with
  | nil => rfl
  | cons x l ih =>
    rw [List.foldl_cons, ih]
    rfl

/-- The tracked maxima only grow in absolute value along the scan. -/
lemma drift_fold_mono {n : ℕ} (l : List (Fin n × Fin 3 × Fin 3))
    (st : DriftState n) :
    |st.maxval1| ≤ |(l.foldl drift_step st).maxval1| ∧
    |st.maxval2| ≤ |(l.foldl drift_step st).maxval2| := by
  induction l generalizing st with
  | nil => exact ⟨le_refl _, le_refl _⟩
  | cons x l ih =>
    rw [List.foldl_cons]
    refine ⟨le_trans ?_ (ih (drift_step st x)).1,
      le_trans ?_ (ih (drift_step st x)).2⟩
    · unfold drift_step
      dsimp only
      split_ifs with h
      · exact le_of_lt h
      · exact le_refl _
    · unfold drift_step
      dsimp only
      split_ifs with h
      · exact le_of_lt h
      · exact le_refl _

/-- Every scanned column/row sum is dominated by the final maxima. -/
lemma drift_fold_covers {n : ℕ} (l : List (Fin n × Fin 3 × Fin 3))
    (st : DriftState n) (x : Fin n × Fin 3 × Fin 3) (hx : x ∈ l) :
    |∑ q, st.fc q x.1 x.2.1 x.2.2| ≤ |(l.foldl drift_step st).maxval1| ∧
    |∑ q, st.fc x.1 q x.2.1 x.2.2| ≤ |(l.foldl drift_step st).maxval2| := by
  induction l generalizing st with
  | nil => simp at hx
  | cons y l ih =>
    rw [List.foldl_cons]
    rcases List.mem_cons.mp hx with rfl | hmem
    · have h1 : |∑ q, st.fc q x.1 x.2.1 x.2.2|
          ≤ |(drift_step st x).maxval1| := by
        unfold drift_step
        dsimp only
        split_ifs with h
        · exact le_refl _
        · exact le_of_not_lt h
      have h2 : |∑ q, st.fc x.1 q x.2.1 x.2.2|
          ≤ |(drift_step st x).maxval2| := by
        unfold drift_step
        dsimp only
        split_ifs with h
        · exact le_refl _
        · exact le_of_not_lt h
      exact ⟨le_trans h1 (drift_fold_mono l (drift_step st x)).1,
        le_trans h2 (drift_fold_mono l (drift_step st x)).2⟩
    · exact ih (drift_step st y) hmem

/-- C8: on a full square tensor, the drift diagnostic leaves every entry of
the force-constants buffer unchanged — it only reads column and row sums —
and the values it reports dominate every column/row sum in absolute
value. -/
theorem show_drift_force_constants_square_readonly {n : ℕ} (fc : FC n n) :
    (show_drift_force_constants_square fc).fc = fc ∧
    ∀ (i : Fin n) (j k : Fin 3),
      |∑ q, fc q i j k| ≤ |(show_drift_force_constants_square fc).maxval1| ∧
      |∑ q, fc i q j k| ≤ |(show_drift_force_constants_square fc).maxval2| := by
  unfold show_drift_force_constants_square
  constructor
  · exact drift_fold_fc _ _
  · intro i j k
    have hx : (i, j, k) ∈ ndindex_n33 n := by
      unfold ndindex_n33
      simp [List.mem_flatMap]
    exact drift_fold_covers (ndindex_n33 n) ⟨0, (0, 0), 0, (0, 0), fc⟩
      (i, j, k) hx

/-! ## Theorems: solve_force_constants row selection (C9) -/

lemma np_where_first_eq_none_iff (disp : ℕ) (l : List ℕ) :
    np_where_first disp l = none ↔ disp ∉ l := by
  induction l with
  | nil => simp [np_where_first]
  | cons a l ih =>
    by_cases h : a = disp
    · subst h
      simp [np_where_first]
    · simp only [np_where_first, if_neg h, Option.map_eq_none', ih,
        List.mem_cons, not_or]
      constructor
      · intro h2
        exact ⟨fun hda => h hda.symm, h2⟩
      · intro h2
        exact h2.2

/-- A found index is within bounds and is the first occurrence. -/
lemma np_where_first_spec (disp : ℕ) (l : List ℕ) (idx : ℕ)
    (h : np_where_first disp l = some idx) :
    idx < l.length ∧ l.get? idx = some disp := by
  induction l generalizing idx with
  | nil => simp [np_where_first] at h
  | cons a l ih =>
    by_cases ha : a = disp
    · simp only [np_where_first, if_pos ha, Option.some.injEq] at h
      subst h
      simpa using ha
    · simp only [np_where_first, if_neg ha, Option.map_eq_some'] at h
      obtain ⟨idx', h', rfl⟩ := h
      obtain ⟨hlt, hget⟩ := ih idx' h'
      exact ⟨Nat.succ_lt_succ hlt, by simpa using hget⟩

/-- C9: with a non-`None` `atom_list` that misses the displaced atom,
`solve_force_constants` raises `RuntimeError` with the tensor left entirely
unchanged; when the displaced atom occurs, exactly the row at its (first)
position in `atom_list` is overwritten with the solver output and every
other row is untouched. -/
theorem solve_force_constants_atom_list_behavior {L N : ℕ}
    (fc : Fin L → Fin N → M3) (disp : ℕ) (al : List ℕ)
    (solved : Fin N → M3) (hlen : al.length ≤ L) :
    (disp ∉ al →
      solve_force_constants fc disp (some al) solved
        = (some PyError.runtimeError, fc)) ∧
    (disp ∈ al → ∃ idx, ∃ h : idx < L,
      np_where_first disp al = some idx ∧ al.get? idx = some disp ∧
      solve_force_constants fc disp (some al) solved
        = (none, Function.update fc ⟨idx, h⟩ solved) ∧
      (∀ r : Fin L, r ≠ ⟨idx, h⟩ →
        (solve_force_constants fc disp (some al) solved).2 r = fc r) ∧
      (solve_force_constants fc disp (some al) solved).2 ⟨idx, h⟩
        = solved) := by
  constructor
  · intro hnot
    have hw : np_where_first disp al = none :=
      (np_where_first_eq_none_iff disp al).mpr hnot
    simp only [solve_force_constants, hw]
  · intro hmem
    rcases hw : np_where_first disp al with _ | idx
    · exact absurd hmem ((np_where_first_eq_none_iff disp al).mp hw)
    · obtain ⟨hltlen, hget⟩ := np_where_first_spec disp al idx hw
      have hlt : idx < L := lt_of_lt_of_le hltlen hlen
      have heq : solve_force_constants fc disp (some al) solved
          = (none, Function.update fc ⟨idx, hlt⟩ solved) := by
        simp only [solve_force_constants, hw, dif_pos hlt]
      refine ⟨idx, hlt, rfl, hget, heq, ?_, ?_⟩
      · intro r hr
        rw [heq]
        exact Function.update_noteq hr _ _
      · rw [heq]
        exact Function.update_same _ _ _

/-- Witness for C9 on a two-row tensor with `atom_list = [5, 7]` and the
displaced atom `7` (present, at position 1). -/
theorem solve_force_constants_atom_list_behavior_witness :
    ((7 : ℕ) ∉ [5, 7] →
      solve_force_constants (fun _ _ _ _ => (0 : ℚ) : Fin 2 → Fin 1 → M3) 7
          (some [5, 7]) (fun _ _ _ => (4 : ℚ))
        = (some PyError.runtimeError, fun _ _ _ _ => (0 : ℚ))) ∧
    ((7 : ℕ) ∈ [5, 7] → ∃ idx, ∃ h : idx < 2,
      np_where_first 7 [5, 7] = some idx ∧
      [5, 7].get? idx = some 7 ∧
      solve_force_constants (fun _ _ _ _ => (0 : ℚ) : Fin 2 → Fin 1 → M3) 7
          (some [5, 7]) (fun _ _ _ => (4 : ℚ))
        = (none, Function.update (fun _ _ _ _ => (0 : ℚ) : Fin 2 → Fin 1 → M3)
            ⟨idx, h⟩ (fun _ _ _ => (4 : ℚ))) ∧
      (∀ r : Fin 2, r ≠ ⟨idx, h⟩ →
        (solve_force_constants (fun _ _ _ _ => (0 : ℚ) : Fin 2 → Fin 1 → M3)
          7 (some [5, 7]) (fun _ _ _ => (4 : ℚ))).2 r
          = (fun _ _ _ _ => (0 : ℚ) : Fin 2 → Fin 1 → M3) r) ∧
      (solve_force_constants (fun _ _ _ _ => (0 : ℚ) : Fin 2 → Fin 1 → M3)
          7 (some [5, 7]) (fun _ _ _ => (4 : ℚ))).2 ⟨idx, h⟩
        = fun _ _ _ => (4 : ℚ)) :=
  solve_force_constants_atom_list_behavior
    (fun _ _ _ _ => (0 : ℚ)) 7 [5, 7] (fun _ _ _ => (4 : ℚ)) (by decide)

/-! ## Theorems: permutation symmetry on a compact tensor (C6) -/

/-- Running the inner column loop past well-formed columns up to a column
counter `jb` that is out of bounds on axis 0 of the copy raises the
corresponding `IndexError`. -/
lemma perm_sym_inner_error {n m : ℕ} (fc : FC n m) (i : Fin n)
    (him : (i : ℕ) < m) (js1 : List ℕ) (h1 : ∀ j ∈ js1, j < n ∧ j < m)
    (jb : ℕ) (hbm : jb < m) (hbn : ¬ jb < n) (rest : List ℕ) (st : FC n m) :
    (js1 ++ jb :: rest).foldlM (perm_sym_step fc i) st
      = Except.error (NpError.indexOutOfBounds 0 jb n) := by
  induction js1 generalizing st with
  | nil =>
    rw [List.nil_append, List.foldlM_cons]
    unfold perm_sym_step
    rw [dif_pos hbm, dif_neg hbn]
    rfl
  | cons a js ih =>
    rw [List.cons_append, List.foldlM_cons]
    obtain ⟨han, ham⟩ := h1 a (List.mem_cons_self a _)
    unfold perm_sym_step
    rw [dif_pos ham, dif_pos han, dif_pos him]
    show (js ++ jb :: rest).foldlM (perm_sym_step fc i) _
      = Except.error (NpError.indexOutOfBounds 0 jb n)
    exact ih (fun j hj => h1 j (List.mem_cons_of_mem a hj)) _

/-- C6 (amended): on a compact tensor (`0 < N_compact = n < m = N_super`),
`set_permutation_symmetry` raises numpy's out-of-bounds `IndexError` — on
axis 0 of the copied tensor, when the column counter first reaches the
compact size `n` during row 0 — rather than a dedicated shape-mismatch
error; in particular it never returns a silently wrong tensor. -/
theorem set_permutation_symmetry_compact_raises {n m : ℕ} (fc : FC n m)
    (hn : 0 < n) (hnm : n < m) :
    set_permutation_symmetry_run fc
      = Except.error (NpError.indexOutOfBounds 0 n n) := by
  obtain ⟨k, rfl⟩ : ∃ k, n = k + 1 :=
    ⟨n - 1, (Nat.succ_pred_eq_of_pos hn).symm⟩
  unfold set_permutation_symmetry_run
  rw [List.finRange_succ, List.foldlM_cons]
  obtain ⟨d, hd⟩ : ∃ d, m = (k + 1) + (d + 1) := ⟨m - k - 2, by omega⟩
  obtain ⟨tail, hdecomp⟩ : ∃ tail, List.range m
      = List.range (k + 1) ++ (k + 1) :: tail := by
    refine ⟨((List.range d).map Nat.succ).map ((k + 1) + ·), ?_⟩
    rw [hd, List.range_add]
    congr 1
    rw [List.range_succ_eq_map]
    simp
  have hinner : (List.range m).foldlM (perm_sym_step fc (0 : Fin (k + 1))) fc
      = Except.error (NpError.indexOutOfBounds 0 (k + 1) (k + 1)) := by
    rw [hdecomp]
    exact perm_sym_inner_error fc 0 (by omega)
      (List.range (k + 1))
      (fun j hj => ⟨List.mem_range.mp hj, by have := List.mem_range.mp hj; omega⟩)
      (k + 1) (by omega) (by omega) _ fc
  rw [hinner]
  rfl

/-- Witness for the amended C6 on a concrete `(1, 2, 3, 3)` compact
tensor. -/
theorem set_permutation_symmetry_compact_raises_witness :
    0 < 1 ∧ 1 < 2 ∧
      set_permutation_symmetry_run (fun _ _ _ _ => (0 : ℚ) : FC 1 2)
        = Except.error (NpError.indexOutOfBounds 0 1 1) :=
  ⟨by decide, by decide,
    set_permutation_symmetry_compact_raises
      (fun _ _ _ _ => (0 : ℚ)) (by decide) (by decide)⟩

/-- C6 counterexample: on a concrete compact tensor the raised error is
numpy's out-of-bounds `IndexError`, not a dedicated shape-mismatch error —
so the claim that a clear shape-mismatch error is raised fails, while the
claim's "no silent wrong answer" part survives (an exception is raised). -/
theorem set_permutation_symmetry_compact_counterexample :
    set_permutation_symmetry_run (fun _ _ _ _ => (0 : ℚ) : FC 1 2)
        = Except.error (NpError.indexOutOfBounds 0 1 1) ∧
      set_permutation_symmetry_run (fun _ _ _ _ => (0 : ℚ) : FC 1 2)
        ≠ Except.error NpError.shapeMismatch := by
  have h1 : set_permutation_symmetry_run (fun _ _ _ _ => (0 : ℚ) : FC 1 2)
      = Except.error (NpError.indexOutOfBounds 0 1 1) := rfl
  refine ⟨h1, ?_⟩
  intro hcontra
  rw [h1] at hcontra
  simp at hcontra

/-! ## Theorems: the set_tensor_symmetry assertion (C10) -/

/-- C10: under the preconditions that the supplied operations form a group
acting on the atoms (composition `c`, identity `e`, inverse ` inv`, with
`mapa` the induced action) and that `map_atoms` sends each atom to the
orbit representative `i` (an independent atom, its own representative),
the `set_tensor_symmetry` assertion
`num_equiv_atoms * num_sitesym == len(rotations)` holds — the
orbit–stabilizer identity — so the assertion branch cannot fire. -/
theorem set_tensor_symmetry_orbit_stabilizer {R K : ℕ}
    (mapa : Fin R → Fin K → Fin K) (map_atoms : Fin K → Fin K) (i : Fin K)
    (c : Fin R → Fin R → Fin R) (e : Fin R) (inv : Fin R → Fin R)
    (hassoc : ∀ a b d, c (c a b) d = c a (c b d))
    (hidl : ∀ a, c e a = a)
    (hinvl : ∀ a, c (inv a) a = e)
    (hinvr : ∀ a, c a (inv a) = e)
    (hact : ∀ a b j, mapa (c a b) j = mapa a (mapa b j))
    (hacte : ∀ j, mapa e j = j)
    (horbit : ∀ j, map_atoms j = i ↔ ∃ r, mapa r i = j) :
    num_equiv_atoms map_atoms i * num_sitesym mapa i = R := by
  classical
  have horb : (Finset.univ.filter fun j => map_atoms j = i)
      = Finset.univ.image fun r => mapa r i := by
    ext j
    simp only [Finset.mem_filter, Finset.mem_univ, true_and,
      Finset.mem_image]
    rw [horbit j]
  have hfib : ∀ y ∈ (Finset.univ.image fun r => mapa r i),
      (Finset.univ.filter fun r => mapa r i = y).card
        = num_sitesym mapa i := by
    intro y hy
    obtain ⟨s0, -, hs0⟩ := Finset.mem_image.mp hy
    unfold num_sitesym
    refine (Finset.card_bij (fun t _ => c s0 t) ?_ ?_ ?_).symm
    · intro a ha
      simp only [Finset.mem_filter, Finset.mem_univ, true_and] at ha ⊢
      rw [hact, ha, hs0]
    · intro a1 ha1 a2 ha2 heq
      change c s0 a1 = c s0 a2 at heq
      have h1 : c (inv s0) (c s0 a1) = a1 := by
        rw [← hassoc, hinvl, hidl]
      have h2 : c (inv s0) (c s0 a2) = a2 := by
        rw [← hassoc, hinvl, hidl]
      rw [← h1, ← h2, heq]
    · intro b hb
      simp only [Finset.mem_filter, Finset.mem_univ, true_and] at hb
      refine ⟨c (inv s0) b, ?_, ?_⟩
      · simp only [Finset.mem_filter, Finset.mem_univ, true_and]
        rw [hact, hb, ← hs0, ← hact, hinvl, hacte]
      · show c s0 (c (inv s0) b) = b
        rw [← hassoc, hinvr, hidl]
  have hcard : (Finset.univ : Finset (Fin R)).card
      = ∑ y ∈ Finset.univ.image (fun r => mapa r i),
          (Finset.univ.filter fun r => mapa r i = y).card :=
    Finset.card_eq_sum_card_fiberwise fun x _ =>
      Finset.mem_image_of_mem _ (Finset.mem_univ x)
  calc num_equiv_atoms map_atoms i * num_sitesym mapa i
      = (Finset.univ.image fun r => mapa r i).card * num_sitesym mapa i := by
        rw [num_equiv_atoms, horb]
    _ = ∑ _y ∈ Finset.univ.image (fun r => mapa r i), num_sitesym mapa i := by
        rw [Finset.sum_const, smul_eq_mul]
    _ = ∑ y ∈ Finset.univ.image (fun r => mapa r i),
          (Finset.univ.filter fun r => mapa r i = y).card :=
        (Finset.sum_congr rfl hfib).symm
    _ = (Finset.univ : Finset (Fin R)).card := hcard.symm
    _ = R := by rw [Finset.card_univ, Fintype.card_fin]

/-- Witness for C10: two atoms acted on by the order-2 translation group of
`Fin 2`; the orbit of atom 0 has size 2, its stabiliser size 1, and
`2 * 1 = 2` operations. -/
theorem set_tensor_symmetry_orbit_stabilizer_witness :
    num_equiv_atoms (fun _ : Fin 2 => (0 : Fin 2)) 0
        * num_sitesym (fun r j : Fin 2 => r + j) 0 = 2 :=
  set_tensor_symmetry_orbit_stabilizer (fun r j => r + j) (fun _ => 0) 0
    (fun a b => a + b) 0 (fun a => a) (by decide) (by decide) (by decide)
    (by decide) (by decide) (by decide) (by decide)

end Phonopy
